import Mathlib

/-!
Verification of the RomComma Repository/Fold data model.

This file shallowly embeds the core of `rc/data/models.py` (the current
revision of the parallel `romcomma/data.py`): the `Repository.into_K_folds`
partition algorithm, the `Fold.X_rotation` getter/setter, the
`Normalization` statistics and its `apply_to`/`undo_from` transforms, and
the `Repository.from_df` folder-creation semantics.

Randomness (`random.shuffle`) is modelled by passing the shuffle outcomes
as explicit parameters, constrained to be permutations of the lists the
source shuffles in place.  File-system state is modelled by explicit state
records.  Real-number statistics use `Real.sqrt` exactly where the source
computes a square root; the probit/normal-CDF pair supplied by scipy is
modelled as an abstract pair of functions inverse to each other on the
clipped interval, which is the only property of them the source relies on.
-/

namespace RomComma

/-! ## Partition model: `Repository.into_K_folds` (models.py lines 130-173)

`into_K_folds` builds, for each proper fold `k`, a test index list
(`rows whose indicator equals k`) and a training index list (all other
rows), from `index` (the row order, shuffled iff `shuffle_before_folding`)
and `indicator` (the concatenation of the within-block shuffled
`K_blocks`). -/

/-- The test row indices of fold `k`:
`test_index = [index for index, indicator in indicated if k == indicator]`
where `indicated = tuple(zip(index, indicator))` (models.py line 169). -/
def testIndexOf (index indicator : List ℕ) (k : ℕ) : List ℕ :=
  ((index.zip indicator).filter (fun p => p.2 == k)).map Prod.fst

/-- The training row indices of fold `k` before the empty-training swap:
`data_index = [index for index, indicator in indicated if k != indicator]`
(models.py line 168). -/
def dataIndexRawOf (index indicator : List ℕ) (k : ℕ) : List ℕ :=
  ((index.zip indicator).filter (fun p => p.2 != k)).map Prod.fst

/-- The training row indices of fold `k` after the swap
`data_index = test_index if data_index == [] else data_index`
(models.py line 170). -/
def dataIndexOf (index indicator : List ℕ) (k : ℕ) : List ℕ :=
  if dataIndexRawOf index indicator k = [] then testIndexOf index indicator k
  else dataIndexRawOf index indicator k

/-- The blocks before their in-place shuffles:
`K_blocks = [list(range(K)) for dummy in range(int(N / K))]` followed by
`K_blocks.append(list(range(N % K)))` (models.py lines 161-162). -/
def unshuffledKBlocks (K N : ℕ) : List (List ℕ) :=
  (List.range (N / K)).map (fun _ => List.range K) ++ [List.range (N % K)]

/-- The outcome of `for K_range in K_blocks: random.shuffle(K_range)`
(models.py lines 163-164): each block is replaced by a permutation of
itself. -/
def BlocksShuffled (K N : ℕ) (blocks : List (List ℕ)) : Prop :=
  List.Forall₂ List.Perm (unshuffledKBlocks K N) blocks

/-- `index = list(range(N))`, shuffled in place iff `shuffle_before_folding`
(models.py lines 151-153); the shuffle outcome is the parameter `sIdx`. -/
def chosenIndex (shuffle_before_folding : Bool) (sIdx : List ℕ) (N : ℕ) : List ℕ :=
  if shuffle_before_folding then sIdx else List.range N

/-- The on-disk content of one fold directory, at row-index granularity:
the row indices of the training table and of the held-out test table. -/
structure FoldDir where
  trainIdx : List ℕ
  testIdx : List ℕ
  deriving DecidableEq, Repr

/-- The metadata persisted by `into_K_folds`
(`self._meta.update({'K': abs(K), 'has_improper_fold': K > 0,
'shuffle before folding': shuffle_before_folding})`, models.py line 154). -/
structure MetaState where
  K : ℕ
  has_improper_fold : Bool
  shuffle_before_folding : Bool
  deriving DecidableEq, Repr

/-- A Repository's observable state: its number of data rows, its
metadata, and its fold directories (an association list keyed by fold
index, modelling the `fold.k` sub-directories). -/
structure RepoState where
  N : ℕ
  meta : MetaState
  foldDirs : List (ℕ × FoldDir)
  deriving DecidableEq, Repr

/-- `shutil.rmtree(self.fold_folder(k))` for `k in range(upto + 1)`
(models.py lines 149-150): every fold directory with index `≤ upto` is
removed. -/
def rmFoldDirs (dirs : List (ℕ × FoldDir)) (upto : ℕ) : List (ℕ × FoldDir) :=
  dirs.filter (fun p => !(p.1 ≤ upto : Bool))

/-- `Fold.from_dfs(parent, k, ...)` creates fold directory `k` afresh
(its `__init__` in CREATE mode `rmtree`s then `mkdir`s the directory),
so any previous directory `k` is replaced. -/
def writeFoldDir (dirs : List (ℕ × FoldDir)) (k : ℕ) (fd : FoldDir) : List (ℕ × FoldDir) :=
  dirs.filter (fun p => !(p.1 == k)) ++ [(k, fd)]

/-- The loop `for k in range(K): ... Fold.from_dfs(parent=self, k=k,
data=data.iloc[data_index], test_data=data.iloc[test_index], ...)`
(models.py lines 166-172). -/
def writeProperFolds (index indicator : List ℕ) (K : ℕ) (dirs : List (ℕ × FoldDir)) :
    List (ℕ × FoldDir) :=
  (List.range K).foldl
    (fun dirs k =>
      writeFoldDir dirs k ⟨dataIndexOf index indicator k, testIndexOf index indicator k⟩)
    dirs

/-- `Repository.into_K_folds` (models.py lines 130-173), at row-index
granularity.  `sIdx` is the outcome `random.shuffle` would leave in
`index` when `shuffle_before_folding` holds, and `K_blocks` is the list
of already-shuffled blocks.  A raised `IndexError` is modelled as
`.error s`, carrying the state at the moment of the raise. -/
def into_K_folds (s : RepoState) (K : ℤ) (shuffle_before_folding : Bool)
    (sIdx : List ℕ) (K_blocks : List (List ℕ)) : Except RepoState RepoState :=
  let N := s.N
  if 1 ≤ K.natAbs ∧ K.natAbs ≤ N then
    let dirs := rmFoldDirs s.foldDirs (max K.natAbs s.meta.K)
    let index := chosenIndex shuffle_before_folding sIdx N
    let meta : MetaState := ⟨K.natAbs, decide (0 < K), shuffle_before_folding⟩
    let dirs := if 0 < K then writeFoldDir dirs K.natAbs ⟨index, index⟩ else dirs
    let indicator := K_blocks.flatten
    let dirs := writeProperFolds index indicator K.natAbs dirs
    .ok { s with meta := meta, foldDirs := dirs }
  else
    .error s

/-- Look up a fold directory by index, as reading `fold.k` from disk. -/
def foldDir (s : RepoState) (k : ℕ) : Option FoldDir :=
  s.foldDirs.lookup k

/-- The training row indices recorded in fold directory `k` (empty when
the directory is absent). -/
def foldTrainIdx (s : RepoState) (k : ℕ) : List ℕ :=
  ((foldDir s k).map FoldDir.trainIdx).getD []

/-- The test row indices recorded in fold directory `k` (empty when the
directory is absent). -/
def foldTestIdx (s : RepoState) (k : ℕ) : List ℕ :=
  ((foldDir s k).map FoldDir.testIdx).getD []

/-! ### Generic lemmas about zipped lists -/

lemma zip_right_unique {α β : Type} {as : List α} {bs : List β} {a : α} {b₁ b₂ : β}
    (hnd : as.Nodup) (h₁ : (a, b₁) ∈ as.zip bs) (h₂ : (a, b₂) ∈ as.zip bs) : b₁ = b₂ := by
  induction as generalizing bs with
  | nil => simp at h₁
  | cons x xs ih =>
    cases bs with
    | nil => simp at h₁
    | cons y ys =>
      simp only [List.zip_cons_cons, List.mem_cons] at h₁ h₂
      rcases h₁ with h₁ | h₁ <;> rcases h₂ with h₂ | h₂
      · rw [Prod.mk.injEq] at h₁ h₂
        rw [h₁.2, h₂.2]
      · exfalso
        rw [Prod.mk.injEq] at h₁
        have := (List.of_mem_zip h₂).1
        rw [← h₁.1] at hnd
        exact (List.nodup_cons.mp hnd).1 this
      · exfalso
        rw [Prod.mk.injEq] at h₂
        have := (List.of_mem_zip h₁).1
        rw [← h₂.1] at hnd
        exact (List.nodup_cons.mp hnd).1 this
      · exact ih (List.nodup_cons.mp hnd).2 h₁ h₂

lemma exists_zip_right {α β : Type} {as : List α} (bs : List β) {a : α}
    (hlen : as.length ≤ bs.length) (ha : a ∈ as) : ∃ b, (a, b) ∈ as.zip bs := by
  induction as generalizing bs with
  | nil => simp at ha
  | cons x xs ih =>
    cases bs with
    | nil => simp at hlen
    | cons y ys =>
      rcases List.mem_cons.mp ha with rfl | ha
      · exact ⟨y, by simp⟩
      · obtain ⟨b, hb⟩ := ih ys (by simpa using Nat.le_of_succ_le_succ hlen) ha
        exact ⟨b, by simp [hb]⟩

lemma exists_zip_left {α β : Type} (as : List α) {bs : List β} {b : β}
    (hlen : bs.length ≤ as.length) (hb : b ∈ bs) : ∃ a, (a, b) ∈ as.zip bs := by
  induction bs generalizing as with
  | nil => simp at hb
  | cons y ys ih =>
    cases as with
    | nil => simp at hlen
    | cons x xs =>
      rcases List.mem_cons.mp hb with rfl | hb
      · exact ⟨x, by simp⟩
      · obtain ⟨a, ha⟩ := ih xs (by simpa using Nat.le_of_succ_le_succ hlen) hb
        exact ⟨a, by simp [ha]⟩

lemma length_filter_zip_eq_count {as bs : List ℕ} (hlen : as.length = bs.length) (k : ℕ) :
    (((as.zip bs).filter (fun p => p.2 == k)).length) = bs.count k := by
  induction as generalizing bs with
  | nil =>
    cases bs with
    | nil => simp
    | cons y ys => simp at hlen
  | cons x xs ih =>
    cases bs with
    | nil => simp at hlen
    | cons y ys =>
      have h' : xs.length = ys.length := by simpa using hlen
      by_cases hy : y = k
      · simp [List.filter_cons, List.count_cons, hy, ih h']
      · simp [List.filter_cons, List.count_cons, hy, ih h']

/-! ### Membership and size lemmas for the fold index lists -/

lemma mem_testIndexOf {index indicator : List ℕ} {k r : ℕ} :
    r ∈ testIndexOf index indicator k ↔ (r, k) ∈ index.zip indicator := by
  constructor
  · intro h
    simp only [testIndexOf, List.mem_map, List.mem_filter] at h
    obtain ⟨⟨a, c⟩, ⟨hmem, hck⟩, rfl⟩ := h
    simp only [beq_iff_eq] at hck
    rwa [hck] at hmem
  · intro h
    simp only [testIndexOf, List.mem_map, List.mem_filter]
    exact ⟨(r, k), ⟨h, by simp⟩, rfl⟩

lemma mem_dataIndexRawOf {index indicator : List ℕ} {k r : ℕ} :
    r ∈ dataIndexRawOf index indicator k ↔ ∃ c, (r, c) ∈ index.zip indicator ∧ c ≠ k := by
  constructor
  · intro h
    simp only [dataIndexRawOf, List.mem_map, List.mem_filter] at h
    obtain ⟨⟨a, c⟩, ⟨hmem, hck⟩, rfl⟩ := h
    simp only [bne_iff_ne, ne_eq] at hck
    exact ⟨c, hmem, hck⟩
  · rintro ⟨c, hmem, hck⟩
    simp only [dataIndexRawOf, List.mem_map, List.mem_filter]
    exact ⟨(r, c), ⟨hmem, by simpa using hck⟩, rfl⟩

lemma length_testIndexOf {index indicator : List ℕ} (hlen : index.length = indicator.length)
    (k : ℕ) : (testIndexOf index indicator k).length = indicator.count k := by
  simpa [testIndexOf] using length_filter_zip_eq_count hlen k

lemma nodup_testIndexOf {index indicator : List ℕ} (hlen : index.length = indicator.length)
    (hnd : index.Nodup) (k : ℕ) : (testIndexOf index indicator k).Nodup := by
  have hsub : (testIndexOf index indicator k).Sublist (List.map Prod.fst (index.zip indicator)) :=
    List.Sublist.map Prod.fst (List.filter_sublist _)
  rw [List.map_fst_zip _ _ (le_of_eq hlen)] at hsub
  exact hsub.nodup hnd

/-! ### Lemmas about the shuffled blocks and the indicator list -/

lemma blocksShuffled_refl (K N : ℕ) : BlocksShuffled K N (unshuffledKBlocks K N) :=
  List.forall₂_same.mpr (fun x _ => List.Perm.refl x)

lemma map_eq_of_forall₂_perm {α : Type} {f : List α → ℕ}
    (hf : ∀ u v : List α, u.Perm v → f u = f v) :
    ∀ {L₁ L₂ : List (List α)}, List.Forall₂ List.Perm L₁ L₂ → L₂.map f = L₁.map f := by
  intro L₁ L₂ h
  induction h with
  | nil => rfl
  | cons hperm _ ih => simp [ih, hf _ _ hperm]

lemma map_length_of_blocksShuffled {K N : ℕ} {blocks : List (List ℕ)}
    (h : BlocksShuffled K N blocks) :
    blocks.map List.length = (unshuffledKBlocks K N).map List.length :=
  map_eq_of_forall₂_perm (fun _ _ hp => hp.length_eq) h

lemma map_count_of_blocksShuffled {K N : ℕ} {blocks : List (List ℕ)}
    (h : BlocksShuffled K N blocks) (k : ℕ) :
    blocks.map (List.count k) = (unshuffledKBlocks K N).map (List.count k) :=
  map_eq_of_forall₂_perm (fun _ _ hp => hp.count_eq k) h

lemma length_indicator {K N : ℕ} {blocks : List (List ℕ)} (hK : 0 < K)
    (h : BlocksShuffled K N blocks) : blocks.flatten.length = N := by
  rw [List.length_flatten, map_length_of_blocksShuffled h]
  simp only [unshuffledKBlocks, List.map_append, List.map_map, List.map_cons, List.map_nil]
  rw [List.sum_append]
  have hconst : (List.range (N / K)).map (List.length ∘ fun _ => List.range K)
      = List.replicate (N / K) K := by
    simp [Function.comp_def, List.map_const']
  rw [hconst]
  simp only [List.sum_replicate, List.sum_cons, List.sum_nil, List.length_range, smul_eq_mul,
    add_zero]
  rw [Nat.mul_comm]
  exact Nat.div_add_mod N K

lemma exists_left_of_forall₂ {α β : Type} {R : α → β → Prop} {L₁ : List α} {L₂ : List β}
    (h : List.Forall₂ R L₁ L₂) {b : β} (hb : b ∈ L₂) : ∃ a ∈ L₁, R a b := by
  induction h with
  | nil => simp at hb
  | cons hr _ ih =>
    rcases List.mem_cons.mp hb with rfl | hb
    · exact ⟨_, List.mem_cons_self _ _, hr⟩
    · obtain ⟨a, ha, har⟩ := ih hb
      exact ⟨a, List.mem_cons_of_mem _ ha, har⟩

lemma indicator_mem_lt {K N : ℕ} {blocks : List (List ℕ)} (hK : 0 < K)
    (h : BlocksShuffled K N blocks) : ∀ x ∈ blocks.flatten, x < K := by
  intro x hx
  obtain ⟨blk, hblk, hxblk⟩ := List.mem_flatten.mp hx
  obtain ⟨u, hu, hperm⟩ := exists_left_of_forall₂ h hblk
  have hxu : x ∈ u := hperm.mem_iff.mpr hxblk
  simp only [unshuffledKBlocks, List.mem_append, List.mem_map, List.mem_singleton,
    List.mem_range] at hu
  rcases hu with ⟨_, _, rfl⟩ | rfl
  · exact List.mem_range.mp hxu
  · exact lt_of_lt_of_le (List.mem_range.mp hxu) (le_of_lt (Nat.mod_lt N hK))

lemma count_indicator {K N : ℕ} {blocks : List (List ℕ)} (hK : 0 < K)
    (h : BlocksShuffled K N blocks) {k : ℕ} (hk : k < K) :
    blocks.flatten.count k = N / K + if k < N % K then 1 else 0 := by
  rw [List.count_flatten, map_count_of_blocksShuffled h]
  simp only [unshuffledKBlocks, List.map_append, List.map_map, List.map_cons, List.map_nil]
  rw [List.sum_append]
  have hrange : List.count k (List.range K) = 1 :=
    List.count_eq_one_of_mem (List.nodup_range K) (List.mem_range.mpr hk)
  have hconst : (List.range (N / K)).map (List.count k ∘ fun _ => List.range K)
      = List.replicate (N / K) 1 := by
    simp [Function.comp_def, hrange, List.map_const']
  rw [hconst]
  have hlast : List.count k (List.range (N % K)) = if k < N % K then 1 else 0 := by
    by_cases hkm : k < N % K
    · simp [hkm, List.count_eq_one_of_mem (List.nodup_range _) (List.mem_range.mpr hkm)]
    · simp [hkm, List.count_eq_zero_of_not_mem (fun hc => hkm (List.mem_range.mp hc))]
  simp [hlast, List.sum_replicate]

lemma count_indicator_lt {K N : ℕ} {blocks : List (List ℕ)} (hK : 2 ≤ K) (hKN : K ≤ N)
    (h : BlocksShuffled K N blocks) {k : ℕ} (hk : k < K) :
    blocks.flatten.count k < blocks.flatten.length := by
  rw [count_indicator (by omega) h hk, length_indicator (by omega) h]
  have hdm : K * (N / K) + N % K = N := Nat.div_add_mod N K
  have hq : 1 ≤ N / K := Nat.one_le_div_iff (by omega) |>.mpr hKN
  have h2q : 2 * (N / K) ≤ K * (N / K) := Nat.mul_le_mul_right _ hK
  by_cases hkm : k < N % K <;> simp [hkm] <;> omega

lemma chosenIndex_perm {sIdx : List ℕ} {N : ℕ} (h : sIdx.Perm (List.range N)) (b : Bool) :
    (chosenIndex b sIdx N).Perm (List.range N) := by
  cases b <;> simp [chosenIndex, h]

/-! ### Characterizing the fold directories written by `into_K_folds` -/

lemma lookup_rmFoldDirs (dirs : List (ℕ × FoldDir)) (m j : ℕ) :
    (rmFoldDirs dirs m).lookup j = if j ≤ m then none else dirs.lookup j := by
  induction dirs with
  | nil => simp [rmFoldDirs]
  | cons hd tl ih =>
    obtain ⟨a, fd⟩ := hd
    by_cases ham : a ≤ m
    · have : rmFoldDirs ((a, fd) :: tl) m = rmFoldDirs tl m := by
        simp [rmFoldDirs, List.filter_cons, ham]
      rw [this, ih]
      by_cases hjm : j ≤ m
      · simp [hjm]
      · have hja : j ≠ a := by omega
        simp [hjm, List.lookup_cons, beq_false_of_ne hja]
    · have : rmFoldDirs ((a, fd) :: tl) m = (a, fd) :: rmFoldDirs tl m := by
        simp [rmFoldDirs, List.filter_cons, ham]
      rw [this]
      by_cases hja : j = a
      · subst hja
        have hjm : ¬ j ≤ m := ham
        simp [List.lookup_cons, hjm]
      · simp only [List.lookup_cons]
        have : (j == a) = false := beq_false_of_ne hja
        simp [this, ih, hja]

lemma lookup_writeFoldDir (dirs : List (ℕ × FoldDir)) (k : ℕ) (fd : FoldDir) (j : ℕ) :
    (writeFoldDir dirs k fd).lookup j = if j = k then some fd else dirs.lookup j := by
  induction dirs with
  | nil =>
    by_cases hjk : j = k
    · simp [writeFoldDir, List.lookup_cons, hjk]
    · simp [writeFoldDir, List.lookup_cons, beq_false_of_ne hjk, hjk]
  | cons hd tl ih =>
    obtain ⟨a, fd'⟩ := hd
    by_cases hak : a = k
    · have : writeFoldDir ((a, fd') :: tl) k fd = writeFoldDir tl k fd := by
        simp [writeFoldDir, List.filter_cons, hak]
      rw [this, ih]
      by_cases hjk : j = k
      · simp [hjk]
      · have hja : j ≠ a := by omega
        simp [hjk, List.lookup_cons, beq_false_of_ne hja]
    · have : writeFoldDir ((a, fd') :: tl) k fd = (a, fd') :: writeFoldDir tl k fd := by
        simp [writeFoldDir, List.filter_cons, beq_false_of_ne hak]
      rw [this]
      by_cases hja : j = a
      · subst hja
        have hjk : j ≠ k := hak
        simp [List.lookup_cons, hjk]
      · simp only [List.lookup_cons, beq_false_of_ne hja]
        simp [ih]

lemma lookup_writeProperFolds (index indicator : List ℕ) (K : ℕ) (dirs : List (ℕ × FoldDir))
    (j : ℕ) :
    (writeProperFolds index indicator K dirs).lookup j =
      if j < K then some ⟨dataIndexOf index indicator j, testIndexOf index indicator j⟩
      else dirs.lookup j := by
  induction K generalizing dirs with
  | zero => simp [writeProperFolds]
  | succ K ih =>
    have hstep : writeProperFolds index indicator (K + 1) dirs =
        writeFoldDir (writeProperFolds index indicator K dirs) K
          ⟨dataIndexOf index indicator K, testIndexOf index indicator K⟩ := by
      simp [writeProperFolds, List.range_succ, List.foldl_append]
    rw [hstep, lookup_writeFoldDir]
    by_cases hjK : j = K
    · simp [hjK]
    · rw [if_neg hjK, ih]
      by_cases hjlt : j < K
      · have h1 : j < K + 1 := by omega
        simp [hjlt, h1]
      · have h1 : ¬ j < K + 1 := by omega
        simp [hjlt, h1]

/-- The full effect of a successful `into_K_folds` call on the Repository
state: the new metadata, and the exact content of every fold directory. -/
lemma into_K_folds_spec (s : RepoState) (K : ℤ) (b : Bool) (sIdx : List ℕ)
    (blocks : List (List ℕ)) (hbound : 1 ≤ K.natAbs ∧ K.natAbs ≤ s.N) :
    ∃ s', into_K_folds s K b sIdx blocks = .ok s' ∧
      s'.N = s.N ∧
      s'.meta = ⟨K.natAbs, decide (0 < K), b⟩ ∧
      ∀ j, foldDir s' j =
        if j < K.natAbs then
          some ⟨dataIndexOf (chosenIndex b sIdx s.N) blocks.flatten j,
                testIndexOf (chosenIndex b sIdx s.N) blocks.flatten j⟩
        else if 0 < K ∧ j = K.natAbs then
          some ⟨chosenIndex b sIdx s.N, chosenIndex b sIdx s.N⟩
        else if j ≤ max K.natAbs s.meta.K then none
        else s.foldDirs.lookup j := by
  refine ⟨{ s with
              meta := MetaState.mk K.natAbs (decide (0 < K)) b,
              foldDirs := writeProperFolds (chosenIndex b sIdx s.N) blocks.flatten K.natAbs
                (if 0 < K then
                    writeFoldDir (rmFoldDirs s.foldDirs (max K.natAbs s.meta.K)) K.natAbs
                      (FoldDir.mk (chosenIndex b sIdx s.N) (chosenIndex b sIdx s.N))
                  else rmFoldDirs s.foldDirs (max K.natAbs s.meta.K)) },
    ?_, rfl, rfl, ?_⟩
  · rw [into_K_folds, if_pos hbound]
  intro j
  simp only [foldDir, lookup_writeProperFolds]
  by_cases hj : j < K.natAbs
  · simp [hj]
  · by_cases hK : 0 < K
    · by_cases hjK : j = K.natAbs
      · simp [hj, hK, hjK, lookup_writeFoldDir]
      · by_cases hjm : j ≤ max K.natAbs s.meta.K
        · simp [hj, hK, hjK, hjm, lookup_writeFoldDir, lookup_rmFoldDirs]
        · simp [hj, hK, hjK, hjm, lookup_writeFoldDir, lookup_rmFoldDirs]
    · by_cases hjm : j ≤ max K.natAbs s.meta.K
      · simp [hj, hK, hjm, lookup_rmFoldDirs]
      · simp [hj, hK, hjm, lookup_rmFoldDirs]

/-! ## Claim theorems about the partition -/

/-- If some indicator value differs from `k`, the raw training index list
of fold `k` is non-empty (the `training := test` swap does not fire). -/
lemma dataIndexRawOf_ne_nil {index ind : List ℕ} {k : ℕ}
    (hlen : ind.length ≤ index.length) (hcount : ind.count k < ind.length) :
    dataIndexRawOf index ind k ≠ [] := by
  obtain ⟨c, hc, hck⟩ : ∃ c ∈ ind, c ≠ k := by
    by_contra hcon
    push_neg at hcon
    have := List.count_eq_length.mpr (fun x hx => (hcon x hx).symm)
    omega
  obtain ⟨a, ha⟩ := exists_zip_left index hlen hc
  have hmem : a ∈ dataIndexRawOf index ind k := mem_dataIndexRawOf.mpr ⟨c, ha, hck⟩
  intro hnil
  rw [hnil] at hmem
  simp at hmem

/-- The raw training index list of fold `k` is exactly the complement of
its test index list inside the row range. -/
lemma mem_dataIndexRawOf_iff_compl {N : ℕ} {index ind : List ℕ} {k : ℕ}
    (hperm : index.Perm (List.range N)) (hlenind : ind.length = N) (r : ℕ) :
    r ∈ dataIndexRawOf index ind k ↔ (r < N ∧ r ∉ testIndexOf index ind k) := by
  have hndup : index.Nodup := (hperm.nodup_iff).mpr (List.nodup_range _)
  have hlenidx : index.length = N := by rw [hperm.length_eq, List.length_range]
  have hmemidx : ∀ x, x ∈ index ↔ x < N := fun x => by rw [hperm.mem_iff, List.mem_range]
  constructor
  · intro hr
    obtain ⟨c, hpair, hck⟩ := mem_dataIndexRawOf.mp hr
    refine ⟨(hmemidx r).mp (List.of_mem_zip hpair).1, ?_⟩
    intro hrt
    exact hck (zip_right_unique hndup hpair (mem_testIndexOf.mp hrt))
  · rintro ⟨hrN, hrt⟩
    obtain ⟨c, hpair⟩ := exists_zip_right ind (by omega) ((hmemidx r).mpr hrN)
    refine mem_dataIndexRawOf.mpr ⟨c, hpair, ?_⟩
    intro hck
    subst hck
    exact hrt (mem_testIndexOf.mpr hpair)

/-- **C1.** For every dataset of `N` rows and every `K` with `1 < K ≤ N`,
after `into_K_folds(K, ...)` the test-row index sets of the `K` proper
folds are pairwise disjoint and their union is exactly `{0..N-1}` (each
row appears in exactly one proper fold's test set), and each proper fold's
training set is exactly the complement of its test set; this holds for any
within-block shuffle outcome (`blocks`), any row-shuffle outcome (`sIdx`),
and whether or not `shuffle_before_folding` is set. -/
theorem C1_fold_partition (s : RepoState) (K : ℕ) (b : Bool) (sIdx : List ℕ)
    (blocks : List (List ℕ))
    (hidx : sIdx.Perm (List.range s.N)) (hblocks : BlocksShuffled K s.N blocks)
    (hK1 : 1 < K) (hKN : K ≤ s.N) :
    ∃ s', into_K_folds s (K : ℤ) b sIdx blocks = .ok s' ∧
      (∀ k1 k2, k1 < K → k2 < K → k1 ≠ k2 →
        ∀ r, r ∈ foldTestIdx s' k1 → r ∉ foldTestIdx s' k2) ∧
      ((Finset.range K).biUnion (fun k => (foldTestIdx s' k).toFinset) = Finset.range s.N) ∧
      (∀ k, k < K → ∀ r, r ∈ foldTrainIdx s' k ↔ (r < s.N ∧ r ∉ foldTestIdx s' k)) := by
  have hK0 : 0 < K := by omega
  have hnatAbs : (K : ℤ).natAbs = K := Int.natAbs_ofNat K
  obtain ⟨s', hok, hN, hmeta, hdirs⟩ :=
    into_K_folds_spec s (K : ℤ) b sIdx blocks (by rw [hnatAbs]; omega)
  simp only [hnatAbs] at hdirs
  set index := chosenIndex b sIdx s.N with hindexdef
  set ind := blocks.flatten with hinddef
  have hperm : index.Perm (List.range s.N) := chosenIndex_perm hidx b
  have hndup : index.Nodup := (hperm.nodup_iff).mpr (List.nodup_range _)
  have hlenidx : index.length = s.N := by rw [hperm.length_eq, List.length_range]
  have hlenind : ind.length = s.N := length_indicator hK0 hblocks
  have hmemidx : ∀ r, r ∈ index ↔ r < s.N := fun r => by rw [hperm.mem_iff, List.mem_range]
  have htest : ∀ k, k < K → foldTestIdx s' k = testIndexOf index ind k := by
    intro k hk
    have h := hdirs k
    rw [if_pos hk] at h
    simp [foldTestIdx, h]
  have htrainRaw : ∀ k, k < K → foldTrainIdx s' k = dataIndexOf index ind k := by
    intro k hk
    have h := hdirs k
    rw [if_pos hk] at h
    simp [foldTrainIdx, h]
  have hswap : ∀ k, k < K → dataIndexRawOf index ind k ≠ [] := by
    intro k hk
    have hcount : ind.count k < ind.length := count_indicator_lt (by omega) hKN hblocks hk
    obtain ⟨c, hc, hck⟩ : ∃ c ∈ ind, c ≠ k := by
      by_contra hcon
      push_neg at hcon
      have := List.count_eq_length.mpr (fun x hx => (hcon x hx).symm)
      omega
    obtain ⟨a, ha⟩ := exists_zip_left index (by omega) hc
    have hmem : a ∈ dataIndexRawOf index ind k := mem_dataIndexRawOf.mpr ⟨c, ha, hck⟩
    intro hnil
    rw [hnil] at hmem
    simp at hmem
  have htrain : ∀ k, k < K → foldTrainIdx s' k = dataIndexRawOf index ind k := by
    intro k hk
    rw [htrainRaw k hk, dataIndexOf, if_neg (hswap k hk)]
  refine ⟨s', hok, ?_, ?_, ?_⟩
  · intro k1 k2 hk1 hk2 hne r hr1 hr2
    rw [htest k1 hk1] at hr1
    rw [htest k2 hk2] at hr2
    exact hne (zip_right_unique hndup (mem_testIndexOf.mp hr1) (mem_testIndexOf.mp hr2))
  · apply Finset.ext
    intro r
    simp only [Finset.mem_biUnion, Finset.mem_range, List.mem_toFinset]
    constructor
    · rintro ⟨k, hk, hr⟩
      rw [htest k hk] at hr
      exact (hmemidx r).mp (List.of_mem_zip (mem_testIndexOf.mp hr)).1
    · intro hr
      obtain ⟨c, hc⟩ := exists_zip_right ind (by omega) ((hmemidx r).mpr hr)
      have hcK : c < K := indicator_mem_lt hK0 hblocks c (List.of_mem_zip hc).2
      exact ⟨c, hcK, (htest c hcK) ▸ mem_testIndexOf.mpr hc⟩
  · intro k hk r
    rw [htrain k hk, htest k hk]
    constructor
    · intro hr
      obtain ⟨c, hpair, hck⟩ := mem_dataIndexRawOf.mp hr
      refine ⟨(hmemidx r).mp (List.of_mem_zip hpair).1, ?_⟩
      intro hrt
      exact hck (zip_right_unique hndup hpair (mem_testIndexOf.mp hrt))
    · rintro ⟨hrN, hrt⟩
      obtain ⟨c, hpair⟩ := exists_zip_right ind (by omega) ((hmemidx r).mpr hrN)
      refine mem_dataIndexRawOf.mpr ⟨c, hpair, ?_⟩
      intro hck
      subst hck
      exact hrt (mem_testIndexOf.mpr hpair)

/-- Witness for C1 at `N = 4`, `K = 2`, no shuffling. -/
theorem C1_fold_partition_witness :
    (List.range 4).Perm (List.range 4) ∧ BlocksShuffled 2 4 (unshuffledKBlocks 2 4) ∧
      1 < 2 ∧ 2 ≤ (RepoState.mk 4 (MetaState.mk 0 false false) []).N ∧
      (∃ s', into_K_folds (RepoState.mk 4 (MetaState.mk 0 false false) []) ((2 : ℕ) : ℤ) false
          (List.range 4) (unshuffledKBlocks 2 4) = .ok s' ∧
        (∀ k1 k2, k1 < 2 → k2 < 2 → k1 ≠ k2 →
          ∀ r, r ∈ foldTestIdx s' k1 → r ∉ foldTestIdx s' k2) ∧
        ((Finset.range 2).biUnion (fun k => (foldTestIdx s' k).toFinset) =
          Finset.range (RepoState.mk 4 (MetaState.mk 0 false false) []).N) ∧
        (∀ k, k < 2 → ∀ r, r ∈ foldTrainIdx s' k ↔
          (r < (RepoState.mk 4 (MetaState.mk 0 false false) []).N ∧
            r ∉ foldTestIdx s' k))) :=
  ⟨List.Perm.refl _, blocksShuffled_refl 2 4, by decide, by decide,
    C1_fold_partition (RepoState.mk 4 (MetaState.mk 0 false false) []) 2 false
      (List.range 4) (unshuffledKBlocks 2 4) (List.Perm.refl _) (blocksShuffled_refl 2 4)
      (by decide) (by decide)⟩

/-- **C5.** `into_K_folds` with `K > 0` builds, in addition to the `K`
proper folds, an improper fold indexed `K` whose training row set and test
row set are both set-equal to the entire dataset; calling `into_K_folds`
with negative `K` suppresses the improper fold while still building `|K|`
proper folds. -/
theorem C5_improper_fold (s : RepoState) (K : ℕ) (b : Bool) (sIdx : List ℕ)
    (blocks : List (List ℕ)) (hidx : sIdx.Perm (List.range s.N))
    (hK1 : 1 ≤ K) (hKN : K ≤ s.N) :
    (∃ s', into_K_folds s (K : ℤ) b sIdx blocks = .ok s' ∧
      foldTrainIdx s' K = foldTestIdx s' K ∧
      (foldTestIdx s' K).toFinset = Finset.range s.N ∧
      (foldTrainIdx s' K).toFinset = Finset.range s.N) ∧
    (∃ s', into_K_folds s (-(K : ℤ)) b sIdx blocks = .ok s' ∧
      foldDir s' K = none ∧
      (∀ k, k < K → (foldDir s' k).isSome = true)) := by
  have hperm : (chosenIndex b sIdx s.N).Perm (List.range s.N) := chosenIndex_perm hidx b
  have htofin : (chosenIndex b sIdx s.N).toFinset = Finset.range s.N := by
    rw [List.toFinset_eq_of_perm _ _ hperm]
    ext x
    simp
  constructor
  · have hnatAbs : ((K : ℤ)).natAbs = K := Int.natAbs_ofNat K
    obtain ⟨s', hok, hN, hmeta, hdirs⟩ :=
      into_K_folds_spec s (K : ℤ) b sIdx blocks (by rw [hnatAbs]; omega)
    simp only [hnatAbs] at hdirs
    have hK := hdirs K
    rw [if_neg (by omega), if_pos (by exact ⟨by exact_mod_cast hK1, rfl⟩)] at hK
    refine ⟨s', hok, ?_, ?_, ?_⟩
    · simp [foldTrainIdx, foldTestIdx, hK]
    · simp [foldTestIdx, hK, htofin]
    · simp [foldTrainIdx, hK, htofin]
  · have hnatAbs : (-(K : ℤ)).natAbs = K := by
      rw [Int.natAbs_neg, Int.natAbs_ofNat]
    obtain ⟨s', hok, hN, hmeta, hdirs⟩ :=
      into_K_folds_spec s (-(K : ℤ)) b sIdx blocks (by rw [hnatAbs]; omega)
    simp only [hnatAbs] at hdirs
    have hneg : ¬ (0 : ℤ) < -(K : ℤ) := by
      simp only [not_lt, Left.neg_nonpos_iff]
      exact_mod_cast Nat.zero_le K
    refine ⟨s', hok, ?_, ?_⟩
    · have hK := hdirs K
      rw [if_neg (by omega), if_neg (by simp [hneg]), if_pos (le_max_left _ _)] at hK
      exact hK
    · intro k hk
      have h := hdirs k
      rw [if_pos hk] at h
      simp [h]

/-- Witness for C5 at `N = 4`, `K = 2`. -/
theorem C5_improper_fold_witness :
    (List.range 4).Perm (List.range 4) ∧ 1 ≤ 2 ∧
      2 ≤ (RepoState.mk 4 (MetaState.mk 0 false false) []).N ∧
      ((∃ s', into_K_folds (RepoState.mk 4 (MetaState.mk 0 false false) []) ((2 : ℕ) : ℤ)
            false (List.range 4) (unshuffledKBlocks 2 4) = .ok s' ∧
          foldTrainIdx s' 2 = foldTestIdx s' 2 ∧
          (foldTestIdx s' 2).toFinset =
            Finset.range (RepoState.mk 4 (MetaState.mk 0 false false) []).N ∧
          (foldTrainIdx s' 2).toFinset =
            Finset.range (RepoState.mk 4 (MetaState.mk 0 false false) []).N) ∧
        (∃ s', into_K_folds (RepoState.mk 4 (MetaState.mk 0 false false) []) (-((2 : ℕ) : ℤ))
            false (List.range 4) (unshuffledKBlocks 2 4) = .ok s' ∧
          foldDir s' 2 = none ∧
          (∀ k, k < 2 → (foldDir s' k).isSome = true))) :=
  ⟨List.Perm.refl _, by decide, by decide,
    C5_improper_fold (RepoState.mk 4 (MetaState.mk 0 false false) []) 2 false
      (List.range 4) (unshuffledKBlocks 2 4) (List.Perm.refl _) (by decide) (by decide)⟩

/-- **C6.** `into_K_folds(K)` on a dataset of `N` rows raises `IndexError`
if and only if `|K|` does not lie between `1` and `N` inclusive, and on
such a failure the repository state (metadata and fold directories) is
returned unchanged: the bounds check precedes all mutation. -/
theorem C6_bounds_check (s : RepoState) (K : ℤ) (b : Bool) (sIdx : List ℕ)
    (blocks : List (List ℕ)) :
    (¬(1 ≤ K.natAbs ∧ K.natAbs ≤ s.N) → into_K_folds s K b sIdx blocks = .error s) ∧
    ((1 ≤ K.natAbs ∧ K.natAbs ≤ s.N) → ∃ s', into_K_folds s K b sIdx blocks = .ok s') := by
  constructor
  · intro h
    rw [into_K_folds, if_neg h]
  · intro h
    obtain ⟨s', hok, _⟩ := into_K_folds_spec s K b sIdx blocks h
    exact ⟨s', hok⟩

/-- Witness for C6: `K = 0` and `K = 11` fail on `N = 10` with the state
returned untouched, while `K = 2` succeeds. -/
theorem C6_bounds_check_witness :
    (into_K_folds (RepoState.mk 10 (MetaState.mk 0 false false) []) 0 false [] [] =
      .error (RepoState.mk 10 (MetaState.mk 0 false false) [])) ∧
    (into_K_folds (RepoState.mk 10 (MetaState.mk 0 false false) []) 11 false [] [] =
      .error (RepoState.mk 10 (MetaState.mk 0 false false) [])) ∧
    (∃ s', into_K_folds (RepoState.mk 10 (MetaState.mk 0 false false) []) 2 false [] [] =
      .ok s') :=
  ⟨(C6_bounds_check (RepoState.mk 10 (MetaState.mk 0 false false) []) 0 false [] []).1
      (by decide),
   (C6_bounds_check (RepoState.mk 10 (MetaState.mk 0 false false) []) 11 false [] []).1
      (by decide),
   (C6_bounds_check (RepoState.mk 10 (MetaState.mk 0 false false) []) 2 false [] []).2
      (by decide)⟩

/-- **C7, counterexample.** The claim says the `training := test` swap
occurs only when `|K| ≥ N`.  At `N = 2`, `K = 1` (so `|K| < N`), the raw
training index list is empty, the swap fires, and fold 0's training list
equals its test list `[0, 1]` instead of being the complement of the test
set. -/
theorem C7_swap_counterexample :
    dataIndexRawOf (chosenIndex false (List.range 2) 2) (unshuffledKBlocks 1 2).flatten 0
        = [] ∧
    (into_K_folds (RepoState.mk 2 (MetaState.mk 0 false false) []) 1 false
        (List.range 2) (unshuffledKBlocks 1 2)).toOption.map
        (fun s' => (foldTrainIdx s' 0, foldTestIdx s' 0)) =
      some ([0, 1], [0, 1]) := by
  decide

/-- **C7, amended.** The swap occurs exactly when `|K| = 1` (given the
bounds `1 ≤ |K| ≤ N`): for `K = 1` the raw training list of fold 0 is
empty and training is set to the test list; for every `2 ≤ |K| ≤ N`,
every proper fold's training set is the non-empty complement of its test
set and no swap takes place. -/
theorem C7_swap_iff_K_eq_one (s : RepoState) (K : ℕ) (b : Bool) (sIdx : List ℕ)
    (blocks : List (List ℕ)) (hidx : sIdx.Perm (List.range s.N))
    (hblocks : BlocksShuffled K s.N blocks) (hK1 : 1 ≤ K) (hKN : K ≤ s.N) :
    ∃ s', into_K_folds s (K : ℤ) b sIdx blocks = .ok s' ∧
      ((K = 1 →
        dataIndexRawOf (chosenIndex b sIdx s.N) blocks.flatten 0 = [] ∧
        foldTrainIdx s' 0 = foldTestIdx s' 0) ∧
       (2 ≤ K → ∀ k, k < K →
        dataIndexRawOf (chosenIndex b sIdx s.N) blocks.flatten k ≠ [] ∧
        foldTrainIdx s' k = dataIndexRawOf (chosenIndex b sIdx s.N) blocks.flatten k ∧
        (∀ r, r ∈ foldTrainIdx s' k ↔ (r < s.N ∧ r ∉ foldTestIdx s' k)))) := by
  have hK0 : 0 < K := hK1
  have hnatAbs : ((K : ℤ)).natAbs = K := Int.natAbs_ofNat K
  obtain ⟨s', hok, hN, hmeta, hdirs⟩ :=
    into_K_folds_spec s (K : ℤ) b sIdx blocks (by rw [hnatAbs]; omega)
  simp only [hnatAbs] at hdirs
  set index := chosenIndex b sIdx s.N with hindexdef
  set ind := blocks.flatten with hinddef
  have hperm : index.Perm (List.range s.N) := chosenIndex_perm hidx b
  have hlenidx : index.length = s.N := by rw [hperm.length_eq, List.length_range]
  have hlenind : ind.length = s.N := length_indicator hK0 hblocks
  refine ⟨s', hok, ?_, ?_⟩
  · rintro rfl
    have hall : ∀ p ∈ index.zip ind, (p.2 != 0) = false := by
      rintro ⟨a, c⟩ hp
      have hc : c ∈ ind := (List.of_mem_zip hp).2
      have : c < 1 := indicator_mem_lt hK0 hblocks c hc
      simp only [bne_eq_false_iff_eq]
      omega
    have hraw : dataIndexRawOf index ind 0 = [] := by
      unfold dataIndexRawOf
      rw [List.filter_eq_nil_iff.mpr (fun p hp => by simp [hall p hp])]
      rfl
    refine ⟨hraw, ?_⟩
    have h := hdirs 0
    rw [if_pos (by omega)] at h
    simp [foldTrainIdx, foldTestIdx, h, dataIndexOf, hraw]
  · intro hK2 k hk
    have h := hdirs k
    rw [if_pos hk] at h
    have hcount : ind.count k < ind.length := count_indicator_lt hK2 hKN hblocks hk
    have hne : dataIndexRawOf index ind k ≠ [] :=
      dataIndexRawOf_ne_nil (by omega) hcount
    have htrain : foldTrainIdx s' k = dataIndexRawOf index ind k := by
      simp [foldTrainIdx, h, dataIndexOf, hne]
    have htest : foldTestIdx s' k = testIndexOf index ind k := by
      simp [foldTestIdx, h]
    refine ⟨hne, htrain, ?_⟩
    intro r
    rw [htrain, htest]
    exact mem_dataIndexRawOf_iff_compl hperm hlenind r

/-- Witness for the amended C7, covering both the `K = 1` and the
`2 ≤ K` branch at `N = 4`. -/
theorem C7_swap_iff_K_eq_one_witness :
    ((List.range 4).Perm (List.range 4) ∧ BlocksShuffled 1 4 (unshuffledKBlocks 1 4) ∧
      1 ≤ 1 ∧ 1 ≤ (RepoState.mk 4 (MetaState.mk 0 false false) []).N ∧
      ∃ s', into_K_folds (RepoState.mk 4 (MetaState.mk 0 false false) []) ((1 : ℕ) : ℤ)
          false (List.range 4) (unshuffledKBlocks 1 4) = .ok s' ∧
        ((1 = 1 →
          dataIndexRawOf (chosenIndex false (List.range 4)
            (RepoState.mk 4 (MetaState.mk 0 false false) []).N)
            (unshuffledKBlocks 1 4).flatten 0 = [] ∧
          foldTrainIdx s' 0 = foldTestIdx s' 0) ∧
         (2 ≤ 1 → ∀ k, k < 1 →
          dataIndexRawOf (chosenIndex false (List.range 4)
            (RepoState.mk 4 (MetaState.mk 0 false false) []).N)
            (unshuffledKBlocks 1 4).flatten k ≠ [] ∧
          foldTrainIdx s' k = dataIndexRawOf (chosenIndex false (List.range 4)
            (RepoState.mk 4 (MetaState.mk 0 false false) []).N)
            (unshuffledKBlocks 1 4).flatten k ∧
          (∀ r, r ∈ foldTrainIdx s' k ↔
            (r < (RepoState.mk 4 (MetaState.mk 0 false false) []).N ∧
              r ∉ foldTestIdx s' k))))) :=
  ⟨List.Perm.refl _, blocksShuffled_refl 1 4, by decide, by decide,
    C7_swap_iff_K_eq_one (RepoState.mk 4 (MetaState.mk 0 false false) []) 1 false
      (List.range 4) (unshuffledKBlocks 1 4) (List.Perm.refl _) (blocksShuffled_refl 1 4)
      (by decide) (by decide)⟩

/-- **C10.** For every `N` and `K` with `2 ≤ K ≤ N`, after `into_K_folds`
the test set of proper fold `k` contains exactly `N / K + 1` rows when
`k < N % K` and exactly `N / K` rows otherwise, regardless of the shuffle
outcomes and of `shuffle_before_folding`; consequently fold test sizes
differ by at most one, the remainder rows going to the lowest-indexed
folds. -/
theorem C10_test_fold_sizes (s : RepoState) (K : ℕ) (b : Bool) (sIdx : List ℕ)
    (blocks : List (List ℕ)) (hidx : sIdx.Perm (List.range s.N))
    (hblocks : BlocksShuffled K s.N blocks) (hK2 : 2 ≤ K) (hKN : K ≤ s.N) :
    ∃ s', into_K_folds s (K : ℤ) b sIdx blocks = .ok s' ∧
      (∀ k, k < K →
        (foldTestIdx s' k).length = s.N / K + if k < s.N % K then 1 else 0) ∧
      (∀ k1 k2, k1 < K → k2 < K → k1 ≤ k2 →
        (foldTestIdx s' k2).length ≤ (foldTestIdx s' k1).length ∧
        (foldTestIdx s' k1).length ≤ (foldTestIdx s' k2).length + 1) := by
  have hK0 : 0 < K := by omega
  have hnatAbs : ((K : ℤ)).natAbs = K := Int.natAbs_ofNat K
  obtain ⟨s', hok, hN, hmeta, hdirs⟩ :=
    into_K_folds_spec s (K : ℤ) b sIdx blocks (by rw [hnatAbs]; omega)
  simp only [hnatAbs] at hdirs
  set index := chosenIndex b sIdx s.N with hindexdef
  set ind := blocks.flatten with hinddef
  have hperm : index.Perm (List.range s.N) := chosenIndex_perm hidx b
  have hlenidx : index.length = s.N := by rw [hperm.length_eq, List.length_range]
  have hlenind : ind.length = s.N := length_indicator hK0 hblocks
  have hsize : ∀ k, k < K →
      (foldTestIdx s' k).length = s.N / K + if k < s.N % K then 1 else 0 := by
    intro k hk
    have h := hdirs k
    rw [if_pos hk] at h
    have htest : foldTestIdx s' k = testIndexOf index ind k := by
      simp [foldTestIdx, h]
    rw [htest, length_testIndexOf (by omega) k, count_indicator hK0 hblocks hk]
  refine ⟨s', hok, hsize, ?_⟩
  intro k1 k2 hk1 hk2 hle
  rw [hsize k1 hk1, hsize k2 hk2]
  by_cases h1 : k1 < s.N % K <;> by_cases h2 : k2 < s.N % K <;>
    simp [h1, h2] <;> omega

/-- Witness for C10 at `N = 5`, `K = 2` (`5 / 2 = 2`, `5 % 2 = 1`). -/
theorem C10_test_fold_sizes_witness :
    ((List.range 5).Perm (List.range 5) ∧ BlocksShuffled 2 5 (unshuffledKBlocks 2 5) ∧
      2 ≤ 2 ∧ 2 ≤ (RepoState.mk 5 (MetaState.mk 0 false false) []).N ∧
      ∃ s', into_K_folds (RepoState.mk 5 (MetaState.mk 0 false false) []) ((2 : ℕ) : ℤ)
          false (List.range 5) (unshuffledKBlocks 2 5) = .ok s' ∧
        (∀ k, k < 2 →
          (foldTestIdx s' k).length =
            (RepoState.mk 5 (MetaState.mk 0 false false) []).N / 2 +
              if k < (RepoState.mk 5 (MetaState.mk 0 false false) []).N % 2 then 1 else 0) ∧
        (∀ k1 k2, k1 < 2 → k2 < 2 → k1 ≤ k2 →
          (foldTestIdx s' k2).length ≤ (foldTestIdx s' k1).length ∧
          (foldTestIdx s' k1).length ≤ (foldTestIdx s' k2).length + 1)) :=
  ⟨List.Perm.refl _, blocksShuffled_refl 2 5, by decide, by decide,
    C10_test_fold_sizes (RepoState.mk 5 (MetaState.mk 0 false false) []) 2 false
      (List.range 5) (unshuffledKBlocks 2 5) (List.Perm.refl _) (blocksShuffled_refl 2 5)
      (by decide) (by decide)⟩

/-! ## Normalization transform model (models.py lines 372-456)

The per-column statistics rows (`min`, `rng`, `mean`, `std`) read by
`_relevant_stats` are modelled as lists; the scipy probit
(`scipy.stats.norm.ppf`) and normal CDF (`scipy.stats.norm.cdf`) are
abstract function parameters `ppf` and `cdf`. -/

/-- `Normalization.UNIFORM_MARGIN = 1.0E-12` (models.py lines 378-381). -/
def UNIFORM_MARGIN : ℚ := 1 / 10 ^ 12

/-- pandas `clip(lower=lo, upper=hi)` on one entry: values below `lo`
become `lo`, values above `hi` become `hi`. -/
def clip (lo hi x : ℚ) : ℚ := min hi (max lo x)

/-- The data of `Normalization._relevant_stats` (models.py lines 392-395)
plus the `is_applicable` flag: the `min` and `rng` statistics rows over
the `M` input columns, and the `mean` and `std` rows over the output
columns. -/
structure NormalizationStats where
  is_applicable : Bool
  X_min : List ℚ
  X_rng : List ℚ
  Y_mean : List ℚ
  Y_std : List ℚ

/-- One input entry of `Normalization.apply_to` (models.py lines 412-413):
subtract `min`, divide by `rng`, clip to `[ε, 1-ε]`, apply the probit. -/
def applyX (ppf : ℚ → ℚ) (xmin xrng x : ℚ) : ℚ :=
  ppf (clip UNIFORM_MARGIN (1 - UNIFORM_MARGIN) ((x - xmin) / xrng))

/-- One output entry of `Normalization.apply_to` (models.py line 414):
subtract `mean`, divide by `std`. -/
def applyY (ymean ystd y : ℚ) : ℚ := (y - ymean) / ystd

/-- One input entry of `Normalization.undo_from` (models.py lines 430-431):
normal CDF, multiply by `rng`, add `min`. -/
def undoX (cdf : ℚ → ℚ) (xmin xrng x : ℚ) : ℚ := cdf x * xrng + xmin

/-- One output entry of `Normalization.undo_from` (models.py line 432):
multiply by `std`, add `mean`. -/
def undoY (ymean ystd y : ℚ) : ℚ := y * ystd + ymean

/-- `Normalization.apply_to` on one row: the first `M` entries are the
Input block (`df.iloc[:, :M]`), the rest the Output block. -/
def apply_row (ppf : ℚ → ℚ) (n : NormalizationStats) (M : ℕ) (row : List ℚ) : List ℚ :=
  List.zipWith (fun st x => applyX ppf st.1 st.2 x) (n.X_min.zip n.X_rng) (row.take M) ++
  List.zipWith (fun st y => applyY st.1 st.2 y) (n.Y_mean.zip n.Y_std) (row.drop M)

/-- `Normalization.undo_from` on one row. -/
def undo_row (cdf : ℚ → ℚ) (n : NormalizationStats) (M : ℕ) (row : List ℚ) : List ℚ :=
  List.zipWith (fun st x => undoX cdf st.1 st.2 x) (n.X_min.zip n.X_rng) (row.take M) ++
  List.zipWith (fun st y => undoY st.1 st.2 y) (n.Y_mean.zip n.Y_std) (row.drop M)

/-- `Normalization.apply_to` (models.py lines 401-417): the identity when
`is_applicable` is false. -/
def apply_to (ppf : ℚ → ℚ) (n : NormalizationStats) (M : ℕ) (df : List (List ℚ)) :
    List (List ℚ) :=
  if n.is_applicable then df.map (apply_row ppf n M) else df

/-- `Normalization.undo_from` (models.py lines 419-435): the identity when
`is_applicable` is false. -/
def undo_from (cdf : ℚ → ℚ) (n : NormalizationStats) (M : ℕ) (df : List (List ℚ)) :
    List (List ℚ) :=
  if n.is_applicable then df.map (undo_row cdf n M) else df

/-! ### Round-trip lemmas -/

lemma clip_le (x : ℚ) {lo hi : ℚ} (h : lo ≤ hi) : lo ≤ clip lo hi x ∧ clip lo hi x ≤ hi :=
  ⟨le_min h (le_max_left _ _), min_le_left _ _⟩

lemma abs_clip_sub {lo hi x : ℚ} (hlo : 0 ≤ lo) (hhi : hi ≤ 1) (hx0 : 0 < x) (hx1 : x < 1)
    (hlohi : lo ≤ hi) (hsym : 1 - hi = lo) : |clip lo hi x - x| ≤ lo := by
  unfold clip
  rcases le_or_lt x lo with h1 | h1
  · rw [max_eq_left h1, min_eq_right hlohi, abs_of_nonneg (by linarith)]
    linarith
  · rw [max_eq_right (le_of_lt h1)]
    rcases le_or_lt x hi with h2 | h2
    · rw [min_eq_right h2]
      simp
      exact hlo
    · rw [min_eq_left (le_of_lt h2), abs_of_nonpos (by linarith)]
      linarith

/-- Exact round trip of one output entry: `undoY ∘ applyY = id` whenever
`std ≠ 0`. -/
lemma roundY {ymean ystd y : ℚ} (h : ystd ≠ 0) : undoY ymean ystd (applyY ymean ystd y) = y := by
  unfold undoY applyY
  field_simp

/-- Round trip of one input entry: for raw values strictly inside
`(min, min + rng)`, the pipeline is inverted up to the clipping margin
`UNIFORM_MARGIN * rng`. -/
lemma roundX {xmin xrng x : ℚ} (ppf cdf : ℚ → ℚ) (hr : 0 < xrng) (hlo : xmin < x)
    (hhi : x < xmin + xrng)
    (hinv : ∀ p, UNIFORM_MARGIN ≤ p → p ≤ 1 - UNIFORM_MARGIN → cdf (ppf p) = p) :
    |undoX cdf xmin xrng (applyX ppf xmin xrng x) - x| ≤ UNIFORM_MARGIN * xrng := by
  have hp0 : 0 < (x - xmin) / xrng := div_pos (by linarith) hr
  have hp1 : (x - xmin) / xrng < 1 := (div_lt_one hr).mpr (by linarith)
  have hmar : UNIFORM_MARGIN ≤ 1 - UNIFORM_MARGIN := by norm_num [UNIFORM_MARGIN]
  have hqm := clip_le ((x - xmin) / xrng) hmar
  have hx : undoX cdf xmin xrng (applyX ppf xmin xrng x) =
      clip UNIFORM_MARGIN (1 - UNIFORM_MARGIN) ((x - xmin) / xrng) * xrng + xmin := by
    unfold undoX applyX
    rw [hinv _ hqm.1 hqm.2]
  rw [hx]
  have hqp : |clip UNIFORM_MARGIN (1 - UNIFORM_MARGIN) ((x - xmin) / xrng) -
      (x - xmin) / xrng| ≤ UNIFORM_MARGIN :=
    abs_clip_sub (by norm_num [UNIFORM_MARGIN]) (by norm_num [UNIFORM_MARGIN]) hp0 hp1 hmar
      (by ring)
  have hxp : (x - xmin) / xrng * xrng = x - xmin := by
    field_simp
  have hrw : clip UNIFORM_MARGIN (1 - UNIFORM_MARGIN) ((x - xmin) / xrng) * xrng + xmin - x =
      (clip UNIFORM_MARGIN (1 - UNIFORM_MARGIN) ((x - xmin) / xrng) -
        (x - xmin) / xrng) * xrng := by
    rw [sub_mul, hxp]
    ring
  rw [hrw, abs_mul, abs_of_pos hr]
  exact mul_le_mul_of_nonneg_right hqp (le_of_lt hr)

lemma zipWith_zipWith_same {α β γ δ : Type} (f : α → γ → δ) (g : α → β → γ)
    (as : List α) (bs : List β) :
    List.zipWith f as (List.zipWith g as bs) =
      List.zipWith (fun a b => f a (g a b)) as bs := by
  induction as generalizing bs with
  | nil => simp
  | cons a as ih =>
    cases bs with
    | nil => simp
    | cons b bs => simp [ih]

lemma getD_zipWith {α β γ : Type} (f : α → β → γ) (d : γ) (da : α) (db : β) :
    ∀ (as : List α) (bs : List β) (j : ℕ), j < as.length → j < bs.length →
      (List.zipWith f as bs).getD j d = f (as.getD j da) (bs.getD j db) := by
  intro as
  induction as with
  | nil =>
    intro bs j h
    simp at h
  | cons a as ih =>
    intro bs j hja hjb
    cases bs with
    | nil => simp at hjb
    | cons b bs =>
      cases j with
      | zero => simp
      | succ j => simpa using ih bs j (by simpa using hja) (by simpa using hjb)

lemma getD_take {α : Type} (row : List α) (M j : ℕ) (d : α) (hj : j < M)
    (hr : j < row.length) : (row.take M).getD j d = row.getD j d := by
  rw [List.getD_eq_getElem _ _ (by rw [List.length_take]; omega), List.getElem_take,
    List.getD_eq_getElem _ _ hr]

lemma getD_drop {α : Type} (row : List α) (M j : ℕ) (d : α) (h : M + j < row.length) :
    (row.drop M).getD j d = row.getD (M + j) d := by
  rw [List.getD_eq_getElem _ _ (by rw [List.length_drop]; omega), List.getElem_drop,
    List.getD_eq_getElem _ _ h]

lemma getD_zip_pair (as bs : List ℚ) (j : ℕ) (hja : j < as.length) (hjb : j < bs.length) :
    (as.zip bs).getD j (0, 0) = (as.getD j 0, bs.getD j 0) := by
  rw [List.getD_eq_getElem _ _ (by rw [List.length_zip]; omega), List.getElem_zip,
    List.getD_eq_getElem _ _ hja, List.getD_eq_getElem _ _ hjb]

/-- Round trip of `undo_row ∘ apply_row` on one row of `M` inputs and `L`
outputs: output entries return exactly, input entries return to within
`UNIFORM_MARGIN * rng` of their raw value. -/
lemma undo_row_apply_row (ppf cdf : ℚ → ℚ) (n : NormalizationStats) (M L : ℕ)
    (hXmin : n.X_min.length = M) (hXrng : n.X_rng.length = M)
    (hYmean : n.Y_mean.length = L) (hYstd : n.Y_std.length = L)
    (hrng : ∀ j, j < M → 0 < n.X_rng.getD j 0)
    (hstd : ∀ j, j < L → 0 < n.Y_std.getD j 0)
    (hinv : ∀ p, UNIFORM_MARGIN ≤ p → p ≤ 1 - UNIFORM_MARGIN → cdf (ppf p) = p)
    (row : List ℚ) (hrow : row.length = M + L)
    (hin : ∀ j, j < M → n.X_min.getD j 0 < row.getD j 0 ∧
            row.getD j 0 < n.X_min.getD j 0 + n.X_rng.getD j 0) :
    (undo_row cdf n M (apply_row ppf n M row)).length = M + L ∧
    (∀ j, j < M →
      |(undo_row cdf n M (apply_row ppf n M row)).getD j 0 - row.getD j 0| ≤
        UNIFORM_MARGIN * n.X_rng.getD j 0) ∧
    (∀ j, j < L →
      (undo_row cdf n M (apply_row ppf n M row)).getD (M + j) 0 = row.getD (M + j) 0) := by
  have hstX : (n.X_min.zip n.X_rng).length = M := by
    rw [List.length_zip, hXmin, hXrng]
    simp
  have hstY : (n.Y_mean.zip n.Y_std).length = L := by
    rw [List.length_zip, hYmean, hYstd]
    simp
  have htake : (row.take M).length = M := by
    rw [List.length_take]
    omega
  have hdrop : (row.drop M).length = L := by
    rw [List.length_drop]
    omega
  have hlenA : (List.zipWith (fun st x => applyX ppf st.1 st.2 x) (n.X_min.zip n.X_rng)
      (row.take M)).length = M := by
    rw [List.length_zipWith, hstX, htake]
    simp
  have hcomp : undo_row cdf n M (apply_row ppf n M row) =
      List.zipWith (fun st x => undoX cdf st.1 st.2 (applyX ppf st.1 st.2 x))
        (n.X_min.zip n.X_rng) (row.take M) ++
      List.zipWith (fun st y => undoY st.1 st.2 (applyY st.1 st.2 y))
        (n.Y_mean.zip n.Y_std) (row.drop M) := by
    unfold undo_row apply_row
    rw [List.take_left' hlenA, List.drop_left' hlenA, zipWith_zipWith_same,
      zipWith_zipWith_same]
  set A := List.zipWith (fun st x => undoX cdf st.1 st.2 (applyX ppf st.1 st.2 x))
      (n.X_min.zip n.X_rng) (row.take M) with hAdef
  set B := List.zipWith (fun st y => undoY st.1 st.2 (applyY st.1 st.2 y))
      (n.Y_mean.zip n.Y_std) (row.drop M) with hBdef
  have hlenA' : A.length = M := by
    rw [hAdef, List.length_zipWith, hstX, htake]
    simp
  have hlenB' : B.length = L := by
    rw [hBdef, List.length_zipWith, hstY, hdrop]
    simp
  refine ⟨by rw [hcomp, List.length_append, hlenA', hlenB'], ?_, ?_⟩
  · intro j hj
    have hgetA : (undo_row cdf n M (apply_row ppf n M row)).getD j 0 = A.getD j 0 := by
      rw [hcomp]
      exact List.getD_append A B 0 j (by omega)
    have hA : A.getD j 0 =
        undoX cdf (n.X_min.getD j 0) (n.X_rng.getD j 0)
          (applyX ppf (n.X_min.getD j 0) (n.X_rng.getD j 0) (row.getD j 0)) := by
      rw [hAdef, getD_zipWith _ _ (0, 0) 0 _ _ j (by omega) (by omega),
        getD_zip_pair _ _ j (by omega) (by omega), getD_take row M j 0 hj (by omega)]
    rw [hgetA, hA]
    exact roundX ppf cdf (hrng j hj) (hin j hj).1 (hin j hj).2 hinv
  · intro j hj
    have hgetB : (undo_row cdf n M (apply_row ppf n M row)).getD (M + j) 0 = B.getD j 0 := by
      rw [hcomp, List.getD_append_right A B 0 (M + j) (by omega), hlenA']
      congr 1
      omega
    have hB : B.getD j 0 =
        undoY (n.Y_mean.getD j 0) (n.Y_std.getD j 0)
          (applyY (n.Y_mean.getD j 0) (n.Y_std.getD j 0) (row.getD (M + j) 0)) := by
      rw [hBdef, getD_zipWith _ _ (0, 0) 0 _ _ j (by omega) (by omega),
        getD_zip_pair _ _ j (by omega) (by omega), getD_drop row M j 0 (by omega)]
    rw [hgetB, hB]
    exact roundY (ne_of_gt (hstd j hj))

/-- **C3.** For every normalization with valid statistics (`rng > 0` on
every input column, `std > 0` on every output column) and every data frame
whose raw input values lie strictly inside `(min, max)` (with
`max = min + rng`), `undo_from (apply_to df)` equals `df` within the
clipping tolerance: every output entry is recovered exactly, and every
input entry to within `UNIFORM_MARGIN * rng` of its raw value — the
subtract-min, divide-by-range, clip, probit pipeline is inverted by the
normal-CDF, multiply-by-range, add-min pipeline, and the subtract-mean,
divide-by-std output pipeline is inverted exactly by
multiply-by-std, add-mean. -/
theorem C3_normalization_roundtrip (ppf cdf : ℚ → ℚ) (n : NormalizationStats)
    (M L : ℕ) (df : List (List ℚ))
    (happ : n.is_applicable = true)
    (hXmin : n.X_min.length = M) (hXrng : n.X_rng.length = M)
    (hYmean : n.Y_mean.length = L) (hYstd : n.Y_std.length = L)
    (hrng : ∀ j, j < M → 0 < n.X_rng.getD j 0)
    (hstd : ∀ j, j < L → 0 < n.Y_std.getD j 0)
    (hinv : ∀ p, UNIFORM_MARGIN ≤ p → p ≤ 1 - UNIFORM_MARGIN → cdf (ppf p) = p)
    (hrows : ∀ row ∈ df, row.length = M + L)
    (hin : ∀ row ∈ df, ∀ j, j < M → n.X_min.getD j 0 < row.getD j 0 ∧
            row.getD j 0 < n.X_min.getD j 0 + n.X_rng.getD j 0) :
    (undo_from cdf n M (apply_to ppf n M df)).length = df.length ∧
    ∀ i, i < df.length →
      ((undo_from cdf n M (apply_to ppf n M df)).getD i []).length = M + L ∧
      (∀ j, j < M →
        |((undo_from cdf n M (apply_to ppf n M df)).getD i []).getD j 0 -
          (df.getD i []).getD j 0| ≤ UNIFORM_MARGIN * n.X_rng.getD j 0) ∧
      (∀ j, j < L →
        ((undo_from cdf n M (apply_to ppf n M df)).getD i []).getD (M + j) 0 =
          (df.getD i []).getD (M + j) 0) := by
  have hdf : undo_from cdf n M (apply_to ppf n M df) =
      df.map (fun row => undo_row cdf n M (apply_row ppf n M row)) := by
    unfold undo_from apply_to
    rw [happ]
    simp [List.map_map, Function.comp_def]
  rw [hdf]
  refine ⟨by simp, ?_⟩
  intro i hi
  have hgetrow : (df.map (fun row => undo_row cdf n M (apply_row ppf n M row))).getD i [] =
      undo_row cdf n M (apply_row ppf n M (df.getD i [])) := by
    rw [List.getD_eq_getElem _ _ (by simpa using hi), List.getElem_map,
      List.getD_eq_getElem _ _ hi]
  rw [hgetrow]
  have hmem : df.getD i [] ∈ df := by
    rw [List.getD_eq_getElem _ _ hi]
    exact List.getElem_mem hi
  exact undo_row_apply_row ppf cdf n M L hXmin hXrng hYmean hYstd hrng hstd hinv
    (df.getD i []) (hrows _ hmem) (hin _ hmem)

/-- Witness for C3 at `M = L = 1`, stats `min = 0, rng = 2, mean = 0,
std = 1`, one data row `[1, 5]`, with `ppf = cdf = id` (which satisfy the
inverse hypothesis). -/
theorem C3_normalization_roundtrip_witness :
    ((NormalizationStats.mk true [0] [2] [0] [1]).is_applicable = true) ∧
    (∀ j, j < 1 → (0:ℚ) < (NormalizationStats.mk true [0] [2] [0] [1]).X_rng.getD j 0) ∧
    (∀ p : ℚ, UNIFORM_MARGIN ≤ p → p ≤ 1 - UNIFORM_MARGIN → id (id p) = p) ∧
    (∀ row ∈ [[(1 : ℚ), 5]], row.length = 1 + 1) ∧
    ((undo_from id (NormalizationStats.mk true [0] [2] [0] [1]) 1
        (apply_to id (NormalizationStats.mk true [0] [2] [0] [1]) 1
          [[(1 : ℚ), 5]])).length = ([[(1 : ℚ), 5]] : List (List ℚ)).length ∧
      ∀ i, i < ([[(1 : ℚ), 5]] : List (List ℚ)).length →
        ((undo_from id (NormalizationStats.mk true [0] [2] [0] [1]) 1
          (apply_to id (NormalizationStats.mk true [0] [2] [0] [1]) 1
            [[(1 : ℚ), 5]])).getD i []).length = 1 + 1 ∧
        (∀ j, j < 1 →
          |((undo_from id (NormalizationStats.mk true [0] [2] [0] [1]) 1
            (apply_to id (NormalizationStats.mk true [0] [2] [0] [1]) 1
              [[(1 : ℚ), 5]])).getD i []).getD j 0 -
            (([[(1 : ℚ), 5]] : List (List ℚ)).getD i []).getD j 0| ≤
            UNIFORM_MARGIN * (NormalizationStats.mk true [0] [2] [0] [1]).X_rng.getD j 0) ∧
        (∀ j, j < 1 →
          ((undo_from id (NormalizationStats.mk true [0] [2] [0] [1]) 1
            (apply_to id (NormalizationStats.mk true [0] [2] [0] [1]) 1
              [[(1 : ℚ), 5]])).getD i []).getD (1 + j) 0 =
            (([[(1 : ℚ), 5]] : List (List ℚ)).getD i []).getD (1 + j) 0)) :=
  ⟨rfl,
   by
    intro j hj
    interval_cases j
    norm_num,
   fun _ _ _ => rfl,
   by
    intro row hrow
    simp only [List.mem_singleton] at hrow
    subst hrow
    rfl,
   C3_normalization_roundtrip id id (NormalizationStats.mk true [0] [2] [0] [1]) 1 1
      [[(1 : ℚ), 5]] rfl rfl rfl rfl rfl
      (by
        intro j hj
        interval_cases j
        norm_num)
      (by
        intro j hj
        interval_cases j
        norm_num)
      (fun _ _ _ => rfl)
      (by
        intro row hrow
        simp only [List.mem_singleton] at hrow
        subst hrow
        rfl)
      (by
        intro row hrow j hj
        simp only [List.mem_singleton] at hrow
        subst hrow
        interval_cases j
        norm_num)⟩

/-! ## Rotation model: `Fold.X_rotation` (models.py lines 307-328) -/

/-- `Fold._X_rotate` (models.py line 314):
`np.einsum('Nm,Mm->NM', DataTable.pd.iloc[:, :M], rotation)` — entry
`(n, m)` of the result is `Σ_i X[n, i] * rotation[m, i]`. -/
def X_rotate {Nr M : ℕ} (X : Matrix (Fin Nr) (Fin M) ℚ)
    (rotation : Matrix (Fin M) (Fin M) ℚ) : Matrix (Fin Nr) (Fin M) ℚ :=
  Matrix.of (fun n m => ∑ i, X n i * rotation m i)

/-- The rotation-relevant state of a Fold: the Input blocks of its
training and test tables, and the `X_rotation.csv` artifact (`none` when
the file does not exist). -/
structure FoldRotState (Ntr Nte M : ℕ) where
  trainX : Matrix (Fin Ntr) (Fin M) ℚ
  testX : Matrix (Fin Nte) (Fin M) ℚ
  stored : Option (Matrix (Fin M) (Fin M) ℚ)

/-- The `X_rotation` getter (models.py lines 317-320): the stored matrix,
defaulting to `np.eye(M)` when the artifact is absent. -/
def X_rotation_get {Ntr Nte M : ℕ} (f : FoldRotState Ntr Nte M) :
    Matrix (Fin M) (Fin M) ℚ :=
  f.stored.getD 1

/-- The `X_rotation` setter (models.py lines 322-328): `_X_rotate` the
training table, `_X_rotate` the test table, then persist
`np.matmul(old_value, value)` where `old_value` is the getter's result
read before the artifact is updated. -/
def X_rotation_set {Ntr Nte M : ℕ} (f : FoldRotState Ntr Nte M)
    (value : Matrix (Fin M) (Fin M) ℚ) : FoldRotState Ntr Nte M :=
  { trainX := X_rotate f.trainX value,
    testX := X_rotate f.testX value,
    stored := some ((X_rotation_get f) * value) }

/-- The einsum `'Nm,Mm->NM'` used by `_X_rotate` right-multiplies by the
transpose of the rotation matrix. -/
lemma X_rotate_eq_mul_transpose {Nr M : ℕ} (X : Matrix (Fin Nr) (Fin M) ℚ)
    (R : Matrix (Fin M) (Fin M) ℚ) : X_rotate X R = X * R.transpose := by
  ext n m
  simp [X_rotate, Matrix.mul_apply, Matrix.transpose_apply]

/-- **C2, counterexample.** The claim says the setter replaces the Input
block by `X_old · R`.  With `X_old = [[1, 0]]` and the 90°-rotation
`R = [[0, 1], [-1, 0]]`, the code's einsum `'Nm,Mm->NM'` produces
`X_old · Rᵀ = [[0, -1]]`, not `X_old · R = [[0, 1]]`. -/
theorem C2_rotation_counterexample :
    (X_rotation_set (FoldRotState.mk !![(1 : ℚ), 0] !![(1 : ℚ), 0] none)
        !![(0 : ℚ), 1; -1, 0]).trainX ≠
      !![(1 : ℚ), 0] * !![(0 : ℚ), 1; -1, 0] := by
  intro h
  have h01 := congrFun (congrFun h 0) 1
  simp [X_rotation_set, X_rotate, Matrix.mul_apply, Fin.sum_univ_two] at h01
  norm_num at h01

/-- **C2, amended.** The `X_rotation` setter, applied with matrix `R`,
replaces the Input block of both the fold's training table and its test
table by `X_new = X_old · Rᵀ` (the einsum `'Nm,Mm->NM'`), persists both,
and then persists the cumulative rotation as `prior_cumulative · R`;
consequently applying `R1` then `R2` to a fold starting from no stored
rotation yields the same input tables as applying the single rotation
`R2 · R1` once, while the stored cumulative rotation equals `R1 · R2`.
The getter returns the identity matrix when no rotation artifact is
stored. -/
theorem C2_rotation_setter (Ntr Nte M : ℕ) (f : FoldRotState Ntr Nte M)
    (R1 R2 : Matrix (Fin M) (Fin M) ℚ) (h : f.stored = none) :
    X_rotation_get f = 1 ∧
    (X_rotation_set f R1).trainX = f.trainX * R1.transpose ∧
    (X_rotation_set f R1).testX = f.testX * R1.transpose ∧
    (X_rotation_set f R1).stored = some (X_rotation_get f * R1) ∧
    (X_rotation_set (X_rotation_set f R1) R2).trainX =
      (X_rotation_set f (R2 * R1)).trainX ∧
    (X_rotation_set (X_rotation_set f R1) R2).testX =
      (X_rotation_set f (R2 * R1)).testX ∧
    (X_rotation_set (X_rotation_set f R1) R2).stored = some (R1 * R2) := by
  have hget : X_rotation_get f = 1 := by
    simp [X_rotation_get, h]
  refine ⟨hget, X_rotate_eq_mul_transpose _ _, X_rotate_eq_mul_transpose _ _, rfl, ?_, ?_, ?_⟩
  · show X_rotate (X_rotate f.trainX R1) R2 = X_rotate f.trainX (R2 * R1)
    rw [X_rotate_eq_mul_transpose, X_rotate_eq_mul_transpose, X_rotate_eq_mul_transpose,
      Matrix.transpose_mul, Matrix.mul_assoc]
  · show X_rotate (X_rotate f.testX R1) R2 = X_rotate f.testX (R2 * R1)
    rw [X_rotate_eq_mul_transpose, X_rotate_eq_mul_transpose, X_rotate_eq_mul_transpose,
      Matrix.transpose_mul, Matrix.mul_assoc]
  · show some (X_rotation_get (X_rotation_set f R1) * R2) = some (R1 * R2)
    have hmid : X_rotation_get (X_rotation_set f R1) = X_rotation_get f * R1 := rfl
    rw [hmid, hget, one_mul]

/-- Witness for the amended C2 with concrete `1 × 2` tables and two
concrete rotations, starting from no stored artifact. -/
theorem C2_rotation_setter_witness :
    (FoldRotState.mk !![(1 : ℚ), 0] !![(1 : ℚ), 0] none).stored = none ∧
    (X_rotation_get (FoldRotState.mk !![(1 : ℚ), 0] !![(1 : ℚ), 0] none) = 1 ∧
      (X_rotation_set (FoldRotState.mk !![(1 : ℚ), 0] !![(1 : ℚ), 0] none)
          !![(0 : ℚ), 1; -1, 0]).trainX =
        (FoldRotState.mk !![(1 : ℚ), 0] !![(1 : ℚ), 0] none).trainX *
          (!![(0 : ℚ), 1; -1, 0]).transpose ∧
      (X_rotation_set (FoldRotState.mk !![(1 : ℚ), 0] !![(1 : ℚ), 0] none)
          !![(0 : ℚ), 1; -1, 0]).testX =
        (FoldRotState.mk !![(1 : ℚ), 0] !![(1 : ℚ), 0] none).testX *
          (!![(0 : ℚ), 1; -1, 0]).transpose ∧
      (X_rotation_set (FoldRotState.mk !![(1 : ℚ), 0] !![(1 : ℚ), 0] none)
          !![(0 : ℚ), 1; -1, 0]).stored =
        some (X_rotation_get (FoldRotState.mk !![(1 : ℚ), 0] !![(1 : ℚ), 0] none) *
          !![(0 : ℚ), 1; -1, 0]) ∧
      (X_rotation_set (X_rotation_set (FoldRotState.mk !![(1 : ℚ), 0] !![(1 : ℚ), 0] none)
          !![(0 : ℚ), 1; -1, 0]) !![(1 : ℚ), 0; 0, -1]).trainX =
        (X_rotation_set (FoldRotState.mk !![(1 : ℚ), 0] !![(1 : ℚ), 0] none)
          (!![(1 : ℚ), 0; 0, -1] * !![(0 : ℚ), 1; -1, 0])).trainX ∧
      (X_rotation_set (X_rotation_set (FoldRotState.mk !![(1 : ℚ), 0] !![(1 : ℚ), 0] none)
          !![(0 : ℚ), 1; -1, 0]) !![(1 : ℚ), 0; 0, -1]).testX =
        (X_rotation_set (FoldRotState.mk !![(1 : ℚ), 0] !![(1 : ℚ), 0] none)
          (!![(1 : ℚ), 0; 0, -1] * !![(0 : ℚ), 1; -1, 0])).testX ∧
      (X_rotation_set (X_rotation_set (FoldRotState.mk !![(1 : ℚ), 0] !![(1 : ℚ), 0] none)
          !![(0 : ℚ), 1; -1, 0]) !![(1 : ℚ), 0; 0, -1]).stored =
        some (!![(0 : ℚ), 1; -1, 0] * !![(1 : ℚ), 0; 0, -1])) :=
  ⟨rfl,
    C2_rotation_setter 1 1 2 (FoldRotState.mk !![(1 : ℚ), 0] !![(1 : ℚ), 0] none)
      !![(0 : ℚ), 1; -1, 0] !![(1 : ℚ), 0; 0, -1] rfl⟩

/-! ## Normalization statistics: `Normalization.__init__`
(models.py lines 464-490) -/

/-- The per-column statistics persisted in `normalization.csv`
(rows `mean`, `std`, `rng`, `min`, `max`). -/
structure ColStats where
  mean : ℝ
  std : ℝ
  rng : ℝ
  min : ℝ
  max : ℝ

/-- The statistics computed from one column of training data
(models.py lines 479-489): `mean = data.mean()`; `std = data.std()`,
which is pandas' default `ddof=1`, i.e. the square root of the squared
deviations divided by `n - 1`; `semi_range = std * np.sqrt(3)`; and the
persisted rows `mean`, `std`, `rng = 2 * semi_range`,
`min = mean - semi_range`, `max = mean + semi_range`. -/
noncomputable def computeColStats (data : List ℝ) : ColStats :=
  let mean := data.sum / (data.length : ℝ)
  let std := Real.sqrt ((data.map (fun x => (x - mean) ^ 2)).sum / ((data.length : ℝ) - 1))
  let semi_range := std * Real.sqrt 3
  ColStats.mk mean std (2 * semi_range) (mean - semi_range) (mean + semi_range)

/-- pandas statistics (`data.mean()`, `data.std()`) are per column: the
table-level computation maps `computeColStats` over the columns. -/
noncomputable def computeStats (cols : List (List ℝ)) : List ColStats :=
  cols.map computeColStats

/-- The population standard deviation the claim asserts for the `std`
row, written from the spec's words for comparison with the code's
computation: square root of the squared deviations divided by `n`. -/
noncomputable def populationStd (data : List ℝ) : ℝ :=
  Real.sqrt ((data.map (fun x => (x - data.sum / (data.length : ℝ)) ^ 2)).sum /
    (data.length : ℝ))

/-- **C8, counterexample.** On the column `[0, 2]` the code's `std`
(pandas `ddof=1`) is `√2`, while the population standard deviation the
claim asserts is `1`. -/
theorem C8_std_counterexample :
    (computeColStats [0, 2]).std ≠ populationStd [0, 2] := by
  have hcode : (computeColStats [0, 2]).std = Real.sqrt 2 := by
    simp only [computeColStats, List.sum_cons, List.sum_nil, List.length_cons,
      List.length_nil, List.map_cons, List.map_nil]
    norm_num
  have hpop : populationStd [0, 2] = 1 := by
    simp only [populationStd, List.sum_cons, List.sum_nil, List.length_cons,
      List.length_nil, List.map_cons, List.map_nil]
    norm_num
  rw [hcode, hpop]
  intro h
  have h2 : (Real.sqrt 2) ^ 2 = 2 := Real.sq_sqrt (by norm_num)
  rw [h] at h2
  norm_num at h2

/-- **C8, amended.** The normalization statistics computed from a fold's
training data satisfy, per column: `std` is the *sample* (`ddof = 1`)
standard deviation of the training data (its square is the sum of squared
deviations divided by `n - 1` — not the population deviation divided by
`n`), `semi_range = std·√3`, `rng = 2·semi_range = std·√3·2`,
`min = mean − semi_range`, `max = mean + semi_range` (so
`max - min = rng`), with each column's statistics computed independently
of the others. -/
theorem C8_stats_relations (xs : List ℝ) (h2 : 2 ≤ xs.length) :
    (computeColStats xs).mean = xs.sum / (xs.length : ℝ) ∧
    (computeColStats xs).std ^ 2 =
      (xs.map (fun x => (x - xs.sum / (xs.length : ℝ)) ^ 2)).sum / ((xs.length : ℝ) - 1) ∧
    0 ≤ (computeColStats xs).std ∧
    (computeColStats xs).rng = (computeColStats xs).std * Real.sqrt 3 * 2 ∧
    (computeColStats xs).min =
      (computeColStats xs).mean - (computeColStats xs).std * Real.sqrt 3 ∧
    (computeColStats xs).max =
      (computeColStats xs).mean + (computeColStats xs).std * Real.sqrt 3 ∧
    (computeColStats xs).max - (computeColStats xs).min = (computeColStats xs).rng ∧
    (∀ cols : List (List ℝ), ∀ j, j < cols.length →
      (computeStats cols).getD j (computeColStats []) = computeColStats (cols.getD j [])) := by
  have hlen : (1 : ℝ) ≤ (xs.length : ℝ) := by
    have : (1 : ℕ) ≤ xs.length := by omega
    exact_mod_cast this
  have hnum : 0 ≤ (xs.map (fun x => (x - xs.sum / (xs.length : ℝ)) ^ 2)).sum := by
    apply List.sum_nonneg
    intro a ha
    obtain ⟨x, _, rfl⟩ := List.mem_map.mp ha
    positivity
  have hden : (0 : ℝ) ≤ (xs.length : ℝ) - 1 := by linarith
  refine ⟨rfl, ?_, ?_, ?_, rfl, rfl, ?_, ?_⟩
  · show (Real.sqrt ((xs.map (fun x => (x - xs.sum / (xs.length : ℝ)) ^ 2)).sum /
        ((xs.length : ℝ) - 1))) ^ 2 = _
    exact Real.sq_sqrt (div_nonneg hnum hden)
  · exact Real.sqrt_nonneg _
  · show 2 * ((computeColStats xs).std * Real.sqrt 3) =
      (computeColStats xs).std * Real.sqrt 3 * 2
    ring
  · show (computeColStats xs).mean + (computeColStats xs).std * Real.sqrt 3 -
      ((computeColStats xs).mean - (computeColStats xs).std * Real.sqrt 3) =
      2 * ((computeColStats xs).std * Real.sqrt 3)
    ring
  · intro cols j hj
    rw [computeStats, List.getD_eq_getElem _ _ (by simpa using hj), List.getElem_map,
      List.getD_eq_getElem _ _ hj]

/-- Witness for the amended C8 at the column `[0, 2]`. -/
theorem C8_stats_relations_witness :
    2 ≤ ([0, 2] : List ℝ).length ∧
    ((computeColStats [0, 2]).mean =
        ([0, 2] : List ℝ).sum / (([0, 2] : List ℝ).length : ℝ) ∧
      (computeColStats [0, 2]).std ^ 2 =
        (([0, 2] : List ℝ).map (fun x =>
          (x - ([0, 2] : List ℝ).sum / (([0, 2] : List ℝ).length : ℝ)) ^ 2)).sum /
          ((([0, 2] : List ℝ).length : ℝ) - 1) ∧
      0 ≤ (computeColStats [0, 2]).std ∧
      (computeColStats [0, 2]).rng = (computeColStats [0, 2]).std * Real.sqrt 3 * 2 ∧
      (computeColStats [0, 2]).min =
        (computeColStats [0, 2]).mean - (computeColStats [0, 2]).std * Real.sqrt 3 ∧
      (computeColStats [0, 2]).max =
        (computeColStats [0, 2]).mean + (computeColStats [0, 2]).std * Real.sqrt 3 ∧
      (computeColStats [0, 2]).max - (computeColStats [0, 2]).min =
        (computeColStats [0, 2]).rng ∧
      (∀ cols : List (List ℝ), ∀ j, j < cols.length →
        (computeStats cols).getD j (computeColStats []) =
          computeColStats (cols.getD j []))) :=
  ⟨by norm_num, C8_stats_relations [0, 2] (by norm_num)⟩

/-! ## Which normalization `into_K_folds` applies to each fold
(models.py lines 156, 346-369) -/

/-- `data.iloc[idx]` on one column: select the rows listed in `idx`. -/
noncomputable def ilocCol (col : List ℝ) (idx : List ℕ) : List ℝ :=
  idx.map (fun i => col.getD i 0)

/-- The override `into_K_folds` passes to every `Fold.from_dfs`
(models.py line 156): when no normalization path is supplied, the
normalization computed once from the full unfolded data
(`Normalization(self, self._data.pd).csv`, freshly computed when the
repository folder has no `normalization.csv`). -/
noncomputable def into_K_folds_norm (fullCols : List (List ℝ))
    (override : Option (List ColStats)) : List ColStats :=
  override.getD (computeStats fullCols)

/-- The normalization plumbing of `Fold.from_dfs` (models.py lines
361-368).  `Normalization(fold, data, ...)` computes statistics from the
fold's own training data and writes them to the fold's fresh
`normalization.csv`, caching the frame in memory; when an override path
is supplied, `shutil.copy` then overwrites the file on disk — but
`apply_to` reads the *cached in-memory* frame (`self._frame` is not
`None`), so the statistics applied to the fold's tables are the ones
computed from its own training slice, while the copied override is what
remains on disk.  Returns (statistics applied by `apply_to`, statistics
persisted in the fold's `normalization.csv`). -/
noncomputable def from_dfs_norm (trainCols : List (List ℝ))
    (override : Option (List ColStats)) : List ColStats × List ColStats :=
  let computed := computeStats trainCols
  (computed,
    match override with
    | some o => o
    | none => computed)

/-- **C4.** Failing input for the claim that the single full-dataset
normalization is the one applied to every fold: one input column
`[0, 1, 2, 3]`, `K = 2`, no shuffling (identity block shuffles).  Fold 0's
training rows are `[1, 3]`; `from_dfs` *applies* the statistics computed
from that slice (mean `2`), not the full-dataset statistics (mean `3/2`)
that `into_K_folds` passed and that end up persisted on disk — the
applied and persisted statistics disagree. -/
theorem C4_norm_not_shared_failing_input :
    dataIndexOf (chosenIndex false [] 4) (unshuffledKBlocks 2 4).flatten 0 = [1, 3] ∧
    ilocCol [0, 1, 2, 3] [1, 3] = [1, 3] ∧
    (from_dfs_norm [ilocCol [0, 1, 2, 3] [1, 3]]
        (some (into_K_folds_norm [[0, 1, 2, 3]] none))).1 ≠
      into_K_folds_norm [[0, 1, 2, 3]] none ∧
    (from_dfs_norm [ilocCol [0, 1, 2, 3] [1, 3]]
        (some (into_K_folds_norm [[0, 1, 2, 3]] none))).2 =
      into_K_folds_norm [[0, 1, 2, 3]] none := by
  have hiloc : ilocCol [0, 1, 2, 3] [1, 3] = [1, 3] := rfl
  refine ⟨by decide, hiloc, ?_, rfl⟩
  intro h
  have hh : computeColStats [(1 : ℝ), 3] = computeColStats [(0 : ℝ), 1, 2, 3] := by
    have h' := h
    rw [hiloc] at h'
    simpa [from_dfs_norm, into_K_folds_norm, computeStats] using h'
  have hm := congrArg ColStats.mean hh
  simp only [computeColStats, List.sum_cons, List.sum_nil, List.length_cons,
    List.length_nil] at hm
  norm_num at hm

/-! ## Folder creation: `Repository.__init__` CREATE mode and `from_df`
(models.py lines 201-227) -/

/-- The state of the target folder: absent, or present with the names of
its entries. -/
inductive DirState
  | absent
  | present (entries : List String)
  deriving DecidableEq

/-- `shutil.rmtree(self._folder, ignore_errors=True)` (models.py line
210): removes the folder and everything in it; with `ignore_errors=True`
a missing folder is a no-op rather than an error. -/
def rmtree_ignore_errors (_d : DirState) : DirState := DirState.absent

/-- `self._folder.mkdir(mode=0o777, parents=True, exist_ok=False)`
(models.py line 211): creates the folder, raising `FileExistsError` when
it already exists. -/
def mkdir_exist_ok_false (d : DirState) : Except Unit DirState :=
  match d with
  | DirState.absent => Except.ok (DirState.present [])
  | DirState.present _ => Except.error ()

/-- `Repository.__init__` with `init_mode = CREATE` (models.py lines
209-211): `rmtree(..., ignore_errors=True)` then
`mkdir(..., exist_ok=False)`. -/
def repository_init_create (d : DirState) : Except Unit DirState :=
  mkdir_exist_ok_false (rmtree_ignore_errors d)

/-- `Repository.from_df` (models.py lines 213-227): construct the
Repository in CREATE mode, then write the data table and the metadata
document into the fresh folder. -/
def from_df (d : DirState) : Except Unit DirState :=
  (repository_init_create d).map (fun _ => DirState.present ["data.csv", "meta.json"])

/-- **C9, counterexample.** `from_df` on an existing, non-empty repository
folder (holding a data table, metadata, and a fold directory) does *not*
fail: the `rmtree` in CREATE mode deletes the folder first, so the call
succeeds and the previous contents are silently discarded. -/
theorem C9_from_df_counterexample :
    from_df (DirState.present ["data.csv", "meta.json", "fold.0"]) =
      Except.ok (DirState.present ["data.csv", "meta.json"]) ∧
    from_df (DirState.present ["data.csv", "meta.json", "fold.0"]) ≠
      Except.error () := by
  refine ⟨rfl, ?_⟩
  intro h
  rw [show from_df (DirState.present ["data.csv", "meta.json", "fold.0"]) =
      Except.ok (DirState.present ["data.csv", "meta.json"]) from rfl] at h
  exact Except.noConfusion h

/-- **C9, amended.** `Repository.from_df` never fails because of the
target folder's prior state: for every folder state it deletes whatever
was there (`rmtree` with errors ignored), recreates the folder empty, and
writes the table and metadata — silently overwriting any existing
repository. -/
theorem C9_from_df_always_overwrites (d : DirState) :
    from_df d = Except.ok (DirState.present ["data.csv", "meta.json"]) := by
  cases d <;> rfl

end RomComma
